import Mathlib

/-!
Verification of the tool-chain planning and execution engine of
`client.py` (class `MCPClient`).  The Python code is shallowly embedded:
JSON values are an inductive type, Python dicts are association lists,
in-place mutation is modelled by returning the post-state of the mutated
structure, exceptions are modelled with `Except`/`Option`, and the MCP
transport (`session.call_tool`) is an explicit function argument.
-/

namespace MCP

/-- JSON values as produced by Python's `json.loads` (numeric literals are
restricted to integers; the plans handled by the client never use floats). -/
inductive Json where
  | null : Json
  | bool (b : Bool) : Json
  | num (n : Int) : Json
  | str (s : String) : Json
  | arr (xs : List Json) : Json
  | obj (kvs : List (String × Json)) : Json

mutual

/-- Decidable equality on `Json` (the derive handler does not support the
nested occurrence of `List Json`). -/
def Json.decEq : (a b : Json) → Decidable (a = b)
  | .null, .null => isTrue rfl
  | .bool a, .bool b =>
      if h : a = b then isTrue (by rw [h]) else isFalse (fun he => by injection he; exact h ‹_›)
  | .num a, .num b =>
      if h : a = b then isTrue (by rw [h]) else isFalse (fun he => by injection he; exact h ‹_›)
  | .str a, .str b =>
      if h : a = b then isTrue (by rw [h]) else isFalse (fun he => by injection he; exact h ‹_›)
  | .arr xs, .arr ys =>
      match Json.decEqL xs ys with
      | isTrue h => isTrue (by rw [h])
      | isFalse h => isFalse (fun he => by injection he; exact h ‹_›)
  | .obj xs, .obj ys =>
      match Json.decEqKV xs ys with
      | isTrue h => isTrue (by rw [h])
      | isFalse h => isFalse (fun he => by injection he; exact h ‹_›)
  | .null, .bool _ => isFalse nofun
  | .null, .num _ => isFalse nofun
  | .null, .str _ => isFalse nofun
  | .null, .arr _ => isFalse nofun
  | .null, .obj _ => isFalse nofun
  | .bool _, .null => isFalse nofun
  | .bool _, .num _ => isFalse nofun
  | .bool _, .str _ => isFalse nofun
  | .bool _, .arr _ => isFalse nofun
  | .bool _, .obj _ => isFalse nofun
  | .num _, .null => isFalse nofun
  | .num _, .bool _ => isFalse nofun
  | .num _, .str _ => isFalse nofun
  | .num _, .arr _ => isFalse nofun
  | .num _, .obj _ => isFalse nofun
  | .str _, .null => isFalse nofun
  | .str _, .bool _ => isFalse nofun
  | .str _, .num _ => isFalse nofun
  | .str _, .arr _ => isFalse nofun
  | .str _, .obj _ => isFalse nofun
  | .arr _, .null => isFalse nofun
  | .arr _, .bool _ => isFalse nofun
  | .arr _, .num _ => isFalse nofun
  | .arr _, .str _ => isFalse nofun
  | .arr _, .obj _ => isFalse nofun
  | .obj _, .null => isFalse nofun
  | .obj _, .bool _ => isFalse nofun
  | .obj _, .num _ => isFalse nofun
  | .obj _, .str _ => isFalse nofun
  | .obj _, .arr _ => isFalse nofun

/-- Decidable equality on lists of `Json`. -/
def Json.decEqL : (a b : List Json) → Decidable (a = b)
  | [], [] => isTrue rfl
  | [], _ :: _ => isFalse nofun
  | _ :: _, [] => isFalse nofun
  | x :: xs, y :: ys =>
      match Json.decEq x y, Json.decEqL xs ys with
      | isTrue h1, isTrue h2 => isTrue (by rw [h1, h2])
      | isFalse h1, _ => isFalse (fun he => by injection he; exact h1 ‹_›)
      | _, isFalse h2 => isFalse (fun he => by injection he; exact h2 ‹_›)

/-- Decidable equality on key-value lists of `Json`. -/
def Json.decEqKV : (a b : List (String × Json)) → Decidable (a = b)
  | [], [] => isTrue rfl
  | [], _ :: _ => isFalse nofun
  | _ :: _, [] => isFalse nofun
  | (k1, v1) :: xs, (k2, v2) :: ys =>
      match String.decEq k1 k2, Json.decEq v1 v2, Json.decEqKV xs ys with
      | isTrue h0, isTrue h1, isTrue h2 => isTrue (by rw [h0, h1, h2])
      | isFalse h0, _, _ =>
          isFalse (fun he => by injection he with hp ht; injection hp; exact h0 ‹_›)
      | _, isFalse h1, _ =>
          isFalse (fun he => by injection he with hp ht; injection hp; exact h1 ‹_›)
      | _, _, isFalse h2 => isFalse (fun he => by injection he with hp ht; exact h2 ht)

end

instance : DecidableEq Json := Json.decEq

/-- Python `dict` lookup for a string-keyed dict (e.g. a parsed JSON object). -/
def objGet (d : List (String × Json)) (k : String) : Option Json :=
  match d with
  | [] => none
  | (k2, v) :: rest => if k2 = k then some v else objGet rest k

/-- Python `dict` update for a string-keyed dict: replace in place, else append
(this is Python's key-preserving, last-write-wins update). -/
def objSet (d : List (String × Json)) (k : String) (v : Json) : List (String × Json) :=
  match d with
  | [] => [(k, v)]
  | (k2, v2) :: rest => if k2 = k then (k2, v) :: rest else (k2, v2) :: objSet rest k v

/-- Python `dict` lookup for the `tool_outputs` dict (keys are the raw
`step["tool"]` values, values are output texts). -/
def dictGet (d : List (Json × String)) (k : Json) : Option String :=
  match d with
  | [] => none
  | (k2, v) :: rest => if k2 = k then some v else dictGet rest k

/-- Python `dict` update for the `tool_outputs` dict. -/
def dictSet (d : List (Json × String)) (k : Json) (v : String) : List (Json × String) :=
  match d with
  | [] => [(k, v)]
  | (k2, v2) :: rest => if k2 = k then (k2, v) :: rest else (k2, v2) :: dictSet rest k v

/-- Characters removed by Python's argument-free `str.strip()`. -/
def pyWsChar (c : Char) : Bool :=
  c == ' ' || c == '\t' || c == '\n' || c == '\r' || c == '\x0b' || c == '\x0c'

/-- Strip a character class from both ends of a character list
(the semantics of Python's `str.strip(chars)`). -/
def stripEnds (p : Char → Bool) (l : List Char) : List Char :=
  ((l.dropWhile p).reverse.dropWhile p).reverse

/-- Python `str.strip()` (no argument: strips whitespace from both ends). -/
def pyStrip (s : String) : String :=
  String.mk (stripEnds pyWsChar s.data)

/-- The character class of `re.sub(r"[\\/:*?\"<>|]", "", text)` in
`clean_filename`. -/
def illegalChar (c : Char) : Bool :=
  c == '\\' || c == '/' || c == ':' || c == '*' || c == '?' ||
  c == '"' || c == '<' || c == '>' || c == '|'

/-- `MCPClient.clean_filename`: strip surrounding whitespace, delete the
illegal filename characters, truncate to the first 50 characters. -/
def clean_filename (text : String) : String :=
  String.mk (((stripEnds pyWsChar text.data).filter (fun c => !illegalChar c)).take 50)

/-- `s.startswith(pre)` in Python. -/
def pyStartsWith (s pre : String) : Bool :=
  pre.data.isPrefixOf s.data

/-- `s.endswith(suf)` in Python. -/
def pyEndsWith (s suf : String) : Bool :=
  suf.data.reverse.isPrefixOf s.data.reverse

/-- The character set of `val.strip("\x7b\x7d ")` in `resolve_tool_args`:
braces and the space character. -/
def braceSpace (c : Char) : Bool :=
  c == '{' || c == '}' || c == ' '

/-- `val.strip("\x7b\x7d ")`: strip all leading and trailing braces and
spaces. -/
def pyStripBraces (s : String) : String :=
  String.mk (stripEnds braceSpace s.data)

/-- The per-value placeholder resolution performed by the loop in
`MCPClient.resolve_tool_args`: a string value that starts with `\x7b\x7b` and
ends with `\x7d\x7d` is looked up (after stripping braces and spaces from both
ends) in `tool_outputs`; `tool_outputs.get(ref_key, val)` falls back to the
original value. All other values pass through. -/
def resolveVal (tool_outputs : List (Json × String)) (val : Json) : Json :=
  match val with
  | Json.str s =>
      if pyStartsWith s "\x7b\x7b" && pyEndsWith s "\x7d\x7d" then
        match dictGet tool_outputs (Json.str (pyStripBraces s)) with
        | some out => Json.str out
        | none => val
      else val
  | v => v

/-- `MCPClient.resolve_tool_args`.  The Python function mutates `tool_args`
in place (and returns `None`); the embedding returns the post-state of the
two dicts it receives, `(tool_args, tool_outputs)`.  After the placeholder
loop it injects the report filename for `analyze_sentiment` and the report
path for `send_email_with_attachment` when those keys are absent. -/
def resolve_tool_args (tool_name : Json) (tool_args : List (String × Json))
    (tool_outputs : List (Json × String)) (md_filename md_path : String) :
    List (String × Json) × List (Json × String) :=
  let args1 := tool_args.map (fun kv => (kv.1, resolveVal tool_outputs kv.2))
  let args2 :=
    if tool_name = Json.str "analyze_sentiment" ∧ objGet args1 "filename" = none
    then args1 ++ [("filename", Json.str md_filename)] else args1
  let args3 :=
    if tool_name = Json.str "send_email_with_attachment" ∧ objGet args2 "attachment_path" = none
    then args2 ++ [("attachment_path", Json.str md_path)] else args2
  (args3, tool_outputs)

/-- Modelled from the spec: the spec's reading of a placeholder reference —
"an argument value that is the entire string `\x7b\x7b name \x7d\x7d`", where
"optional surrounding whitespace inside the braces is trimmed".  The token is
the text strictly between the outer two braces on each side, with whitespace
(only) trimmed.  Used to compare the spec's substitution condition with the
code's. -/
def specTokenOf (s : String) : Option String :=
  if pyStartsWith s "\x7b\x7b" && pyEndsWith s "\x7d\x7d" && decide (4 ≤ s.data.length) then
    some (String.mk (stripEnds pyWsChar ((s.data.drop 2).reverse.drop 2).reverse))
  else none

/-- Argument dicts passed to tools (`step["arguments"]` after resolution). -/
abbrev Args := List (String × Json)

/-- The `tool_outputs` dict: raw `step["tool"]` value to output text. -/
abbrev Outputs := List (Json × String)

/-- One `session.call_tool(tool_name, tool_args)` invocation, as observed on
the transport: the tool name and the resolved arguments. -/
abbrev Call := Json × Args

/-- The MCP transport: `session.call_tool` either raises (modelled by
`Except.error` with the error message) or returns a result whose `content`
list is modelled by the list of the `.text` fields of its elements. -/
abbrev ToolInvoker := Json → Args → Except String (List String)

/-- Entries of the `messages` transcript built by `execute_tool_chain`:
the seed user message and the per-step tool messages
`\x7brole: tool, tool_call_id: tool_name, content: text\x7d`. -/
inductive Msg where
  | user (content : String) : Msg
  | tool (tool_call_id : Json) (content : String) : Msg
deriving DecidableEq

/-- The exceptions `execute_tool_chain` can raise: `step["tool"]` /
`step["arguments"]` on a dict without the key (KeyError), `step[...]` on a
non-dict (TypeError), `tool_args.items()` on a non-dict (AttributeError),
`result.content[0]` on an empty content list (IndexError), and an error
raised by `session.call_tool` itself. -/
inductive ChainErr where
  | keyError (key : String) : ChainErr
  | typeError : ChainErr
  | attrError : ChainErr
  | indexError : ChainErr
  | toolError (e : String) : ChainErr
deriving DecidableEq

/-- Outcome of one iteration of the `for step in tool_plan` loop body:
an exception raised before the tool is invoked, an exception raised after
the invocation (carrying the invocation that did happen), or a successful
step recording the first content element's text. -/
inductive StepOutcome where
  | errNoCall (e : ChainErr) : StepOutcome
  | errAfterCall (call : Call) (e : ChainErr) : StepOutcome
  | okStep (call : Call) (text : String) : StepOutcome

/-- One iteration of the loop body of `MCPClient.execute_tool_chain`:
read `step["tool"]` and `step["arguments"]`, resolve the arguments against
the outputs accumulated so far, invoke the tool, and take
`result.content[0].text`. -/
def execStep (ct : ToolInvoker) (md_filename md_path : String)
    (tool_outputs : Outputs) (step : Json) : StepOutcome :=
  match step with
  | Json.obj kvs =>
      match objGet kvs "tool" with
      | none => StepOutcome.errNoCall (ChainErr.keyError "tool")
      | some tool_name =>
          match objGet kvs "arguments" with
          | none => StepOutcome.errNoCall (ChainErr.keyError "arguments")
          | some (Json.obj argkvs) =>
              let rargs := (resolve_tool_args tool_name argkvs tool_outputs md_filename md_path).1
              match ct tool_name rargs with
              | Except.error e => StepOutcome.errAfterCall (tool_name, rargs) (ChainErr.toolError e)
              | Except.ok [] => StepOutcome.errAfterCall (tool_name, rargs) ChainErr.indexError
              | Except.ok (text :: _) => StepOutcome.okStep (tool_name, rargs) text
          | some _ => StepOutcome.errNoCall ChainErr.attrError
  | _ => StepOutcome.errNoCall ChainErr.typeError

/-- The `for step in tool_plan` loop of `MCPClient.execute_tool_chain`,
instrumented with the sequence of `call_tool` invocations it performs
(first component).  On success it returns the final `tool_outputs` and
`messages`; a raised exception is `Except.error` (the Python locals are
then discarded, as in the source). -/
def execLoop (ct : ToolInvoker) (md_filename md_path : String) :
    List Json → Outputs → List Msg → List Call →
    List Call × Except ChainErr (Outputs × List Msg)
  | [], outs, msgs, calls => (calls, Except.ok (outs, msgs))
  | step :: rest, outs, msgs, calls =>
      match execStep ct md_filename md_path outs step with
      | StepOutcome.errNoCall e => (calls, Except.error e)
      | StepOutcome.errAfterCall call e => (calls ++ [call], Except.error e)
      | StepOutcome.okStep call text =>
          execLoop ct md_filename md_path rest (dictSet outs call.1 text)
            (msgs ++ [Msg.tool call.1 text]) (calls ++ [call])

/-- `MCPClient.execute_tool_chain`: `tool_outputs = \x7b\x7d`, `messages`
seeded with the user message, then the loop.  The Python function returns
`messages`; the embedding also exposes the invocation trace and the final
`tool_outputs` for verification. -/
def execute_tool_chain (ct : ToolInvoker) (query : String) (tool_plan : List Json)
    (md_filename md_path : String) :
    List Call × Except ChainErr (Outputs × List Msg) :=
  execLoop ct md_filename md_path tool_plan [] [Msg.user query] []

/-- The `step["tool"]` field of a plan step, when the step is a dict that
has one. -/
def stepTool : Json → Option Json
  | Json.obj kvs => objGet kvs "tool"
  | _ => none

/-! ### Model of `json.loads`

A recursive-descent parser for the JSON fragment the client exchanges
(strings with the standard escapes, integer numerals, `true`/`false`/`null`,
arrays and objects; object keys collapse with Python's last-write-wins).
Non-integer numerals are not modelled.  Parse failure is `none`, matching
the `except` branch of `plan_tool_usage`. -/

/-- JSON inter-token whitespace accepted by `json.loads`. -/
def jsonWsChar (c : Char) : Bool :=
  c == ' ' || c == '\t' || c == '\n' || c == '\r'

/-- Skip JSON whitespace. -/
def skipJsonWs (cs : List Char) : List Char :=
  cs.dropWhile jsonWsChar

/-- Value of a hexadecimal digit. -/
def hexVal (c : Char) : Option Nat :=
  if '0' ≤ c ∧ c ≤ '9' then some (c.toNat - '0'.toNat)
  else if 'a' ≤ c ∧ c ≤ 'f' then some (c.toNat - 'a'.toNat + 10)
  else if 'A' ≤ c ∧ c ≤ 'F' then some (c.toNat - 'A'.toNat + 10)
  else none

/-- Parse the remainder of a JSON string literal (the opening quote is
already consumed), decoding escapes; returns the characters and the rest. -/
def parseStrChars : Nat → List Char → Option (List Char × List Char)
  | 0, _ => none
  | _ + 1, [] => none
  | f + 1, c :: rest =>
      if c = '"' then some ([], rest)
      else if c = '\\' then
        match rest with
        | [] => none
        | e :: rest2 =>
            let dec : Option (Char × List Char) :=
              if e = '"' then some ('"', rest2)
              else if e = '\\' then some ('\\', rest2)
              else if e = '/' then some ('/', rest2)
              else if e = 'b' then some ('\x08', rest2)
              else if e = 'f' then some ('\x0c', rest2)
              else if e = 'n' then some ('\n', rest2)
              else if e = 'r' then some ('\r', rest2)
              else if e = 't' then some ('\t', rest2)
              else if e = 'u' then
                match rest2 with
                | a :: b :: c2 :: d :: rest3 =>
                    match hexVal a, hexVal b, hexVal c2, hexVal d with
                    | some x, some y, some z, some w =>
                        some (Char.ofNat (((x * 16 + y) * 16 + z) * 16 + w), rest3)
                    | _, _, _, _ => none
                | _ => none
              else none
            match dec with
            | none => none
            | some (ch, rest3) =>
                match parseStrChars f rest3 with
                | some (cs2, rem) => some (ch :: cs2, rem)
                | none => none
      else
        match parseStrChars f rest with
        | some (cs2, rem) => some (c :: cs2, rem)
        | none => none

/-- Parse a run of decimal digits into a natural number. -/
def digitsToNat (ds : List Char) : Nat :=
  ds.foldl (fun acc c => acc * 10 + (c.toNat - '0'.toNat)) 0

/-- Parse a JSON integer numeral (optional minus, digits, no leading zero,
and no fraction/exponent — floats are outside the model). -/
def parseNumber (cs : List Char) : Option (Json × List Char) :=
  let (neg, cs1) := match cs with
    | '-' :: rest => (true, rest)
    | _ => (false, cs)
  let ds := cs1.takeWhile Char.isDigit
  let rest := cs1.drop ds.length
  if ds = [] then none
  else if 2 ≤ ds.length ∧ ds.head? = some '0' then none
  else match rest with
    | '.' :: _ => none
    | 'e' :: _ => none
    | 'E' :: _ => none
    | _ =>
        let n : Int := Int.ofNat (digitsToNat ds)
        some (Json.num (if neg then -n else n), rest)

mutual

/-- Parse one JSON value; fuel bounds the recursion depth. -/
def parseVal : Nat → List Char → Option (Json × List Char)
  | 0, _ => none
  | f + 1, cs =>
      match skipJsonWs cs with
      | [] => none
      | c :: rest =>
          if c = '"' then
            match parseStrChars (rest.length + 1) rest with
            | some (s, rem) => some (Json.str (String.mk s), rem)
            | none => none
          else if c = '[' then
            match skipJsonWs rest with
            | ']' :: rem => some (Json.arr [], rem)
            | cs2 => parseArrRest f cs2 []
          else if c = '{' then
            match skipJsonWs rest with
            | '}' :: rem => some (Json.obj [], rem)
            | cs2 => parseObjRest f cs2 []
          else if c = 't' then
            if ['r', 'u', 'e'].isPrefixOf rest then some (Json.bool true, rest.drop 3) else none
          else if c = 'f' then
            if ['a', 'l', 's', 'e'].isPrefixOf rest then some (Json.bool false, rest.drop 4) else none
          else if c = 'n' then
            if ['u', 'l', 'l'].isPrefixOf rest then some (Json.null, rest.drop 3) else none
          else parseNumber (c :: rest)

/-- Parse the elements of a non-empty JSON array (after `[`). -/
def parseArrRest : Nat → List Char → List Json → Option (Json × List Char)
  | 0, _, _ => none
  | f + 1, cs, acc =>
      match parseVal f cs with
      | none => none
      | some (v, rem) =>
          match skipJsonWs rem with
          | ',' :: rem2 => parseArrRest f rem2 (acc ++ [v])
          | ']' :: rem2 => some (Json.arr (acc ++ [v]), rem2)
          | _ => none

/-- Parse the members of a non-empty JSON object (after `{`);
duplicate keys collapse last-write-wins as in Python's `dict`. -/
def parseObjRest : Nat → List Char → List (String × Json) → Option (Json × List Char)
  | 0, _, _ => none
  | f + 1, cs, acc =>
      match skipJsonWs cs with
      | '"' :: rest =>
          match parseStrChars (rest.length + 1) rest with
          | none => none
          | some (k, rem) =>
              match skipJsonWs rem with
              | ':' :: rem2 =>
                  match parseVal f rem2 with
                  | none => none
                  | some (v, rem3) =>
                      let acc2 := objSet acc (String.mk k) v
                      match skipJsonWs rem3 with
                      | ',' :: rem4 => parseObjRest f rem4 acc2
                      | '}' :: rem4 => some (Json.obj acc2, rem4)
                      | _ => none
              | _ => none
      | _ => none

end

/-- `json.loads`: parse one value and require only whitespace to remain. -/
def jsonLoads (s : String) : Option Json :=
  match parseVal (2 * s.data.length + 4) s.data with
  | some (v, rem) => if skipJsonWs rem = [] then some v else none
  | none => none

/-! ### Model of `re.search(r"```(?:json)?\\s*([\s\S]+?)\\s*```", content)`

The pattern is taken literally from the source.  In the raw string the
author wrote `\\s`, which the regex engine reads as an escaped literal
backslash followed by `s*` — not the whitespace class (contrast `[\s\S]`,
written with single backslashes, which is the any-character class).  So the
pattern is: three backquotes, optional `json` (greedy), a literal backslash,
a greedy run of `s`, a lazy non-empty capture of any characters, a literal
backslash, a run of `s`, three backquotes.  The model implements leftmost
search with the same greedy/lazy backtracking order. -/

/-- The backquote character. -/
def backquote : Char := Char.ofNat 96

/-- Match of the pattern tail `\\s*```` at a position: a literal backslash,
any run of `s`, then three backquotes. -/
def closeFence (cs : List Char) : Bool :=
  match cs with
  | '\\' :: r => [backquote, backquote, backquote].isPrefixOf (r.dropWhile (fun c => c == 's'))
  | _ => false

/-- The lazy capture `([\s\S]+?)`: grow the capture one character at a time,
accepting as soon as the closing `\\s*```` matches the remainder. -/
def capLoop (acc : List Char) : List Char → Option (List Char)
  | [] => none
  | c :: rest => if closeFence rest then some (c :: acc).reverse else capLoop (c :: acc) rest

/-- Backtracking over the greedy opening `\\s*`: try consuming `j` of the
`s` characters, preferring the longest run. -/
def sBack (r : List Char) : Nat → Option (List Char)
  | 0 => capLoop [] r
  | j + 1 =>
      match capLoop [] (r.drop (j + 1)) with
      | some g => some g
      | none => sBack r j

/-- Match of the pattern after the fence head: a literal backslash, a greedy
run of `s` (with backtracking), then the lazy capture and the closer. -/
def afterFence : List Char → Option (List Char)
  | '\\' :: r => sBack r (r.takeWhile (fun c => c == 's')).length
  | _ => none

/-- Attempt the whole pattern at one position: three backquotes, the greedy
optional `json`, then `afterFence`. -/
def matchFenceAt (cs : List Char) : Option (List Char) :=
  if [backquote, backquote, backquote].isPrefixOf cs then
    let cs1 := cs.drop 3
    if ['j', 's', 'o', 'n'].isPrefixOf cs1 then
      match afterFence (cs1.drop 4) with
      | some g => some g
      | none => afterFence cs1
    else afterFence cs1
  else none

/-- `re.search`: try the pattern at each position, leftmost first; the
result is the first capture group. -/
def searchFence : List Char → Option (List Char)
  | [] => none
  | c :: rest =>
      match matchFenceAt (c :: rest) with
      | some g => some g
      | none => searchFence rest

/-- The JSON-candidate extraction in `MCPClient.plan_tool_usage`:
`content.strip()`, then the fenced-block regex, falling back to the whole
stripped response text. -/
def extractCandidate (content : String) : String :=
  let c := pyStrip content
  match searchFence c.data with
  | some g => String.mk g
  | none => c

/-- `MCPClient.plan_tool_usage`, from the point where the model response
text `content` is available: extract the JSON candidate, `json.loads` it,
return it only when it decodes to a list, and return the empty plan on any
other shape or on a parse error. -/
def plan_tool_usage (content : String) : List Json :=
  match jsonLoads (extractCandidate content) with
  | some (Json.arr l) => l
  | some _ => []
  | none => []

/-- Prefix some already-produced messages onto the message component of a
loop result (used to state how `execLoop` accumulates its transcript). -/
def withMsgs (msgs : List Msg) : Except ChainErr (Outputs × List Msg) → Except ChainErr (Outputs × List Msg)
  | Except.ok (o, m) => Except.ok (o, msgs ++ m)
  | Except.error e => Except.error e

/-! ### Concrete fixtures used by the witnesses -/

/-- A concrete transport for the witnesses: a search tool with two behaviours
keyed on its argument, an analysis tool, a tool with empty result content,
and a failing tool. -/
def ctW : ToolInvoker := fun name args =>
  if name = Json.str "search_news" then
    (if objGet args "keyword" = some (Json.str "second") then Except.ok ["second-out"]
     else Except.ok ["news-text", "extra"])
  else if name = Json.str "analyze_sentiment" then Except.ok ["sentiment-text"]
  else if name = Json.str "empty_tool" then Except.ok []
  else if name = Json.str "bad_tool" then Except.error "boom"
  else if name = Json.str "consume" then Except.ok ["consumed"]
  else Except.error "unknown tool"

/-- Plan step: `search_news` with a literal keyword. -/
def stepA : Json :=
  Json.obj [("tool", Json.str "search_news"), ("arguments", Json.obj [("keyword", Json.str "xiaomi")])]

/-- Plan step: a second `search_news` invocation with a different keyword. -/
def stepA2 : Json :=
  Json.obj [("tool", Json.str "search_news"), ("arguments", Json.obj [("keyword", Json.str "second")])]

/-- Plan step: `analyze_sentiment` consuming the `search_news` output via a
placeholder. -/
def stepB : Json :=
  Json.obj [("tool", Json.str "analyze_sentiment"),
    ("arguments", Json.obj [("text", Json.str "\x7b\x7bsearch_news\x7d\x7d")])]

/-- Plan step: a consumer of the `search_news` output via a placeholder. -/
def stepC : Json :=
  Json.obj [("tool", Json.str "consume"),
    ("arguments", Json.obj [("data", Json.str "\x7b\x7bsearch_news\x7d\x7d")])]

/-- Plan step: a tool whose result has an empty content list. -/
def stepE : Json :=
  Json.obj [("tool", Json.str "empty_tool"), ("arguments", Json.obj [])]

/-- Plan step: a tool whose invocation raises. -/
def stepF : Json :=
  Json.obj [("tool", Json.str "bad_tool"), ("arguments", Json.obj [])]

/-- Plan step in the shape the planning prompt requests: a `name` key instead
of `tool`. -/
def stepN : Json :=
  Json.obj [("name", Json.str "search_news"), ("arguments", Json.obj [])]

/-- The 60-character input (a leading space and 59 letters) on which the
claimed take-first-50 description of `clean_filename` fails. -/
def c9input : String := String.mk (' ' :: List.replicate 59 'a')

/-! ### Helper lemmas about the executor loop -/

theorem withMsgs_withMsgs (a b : List Msg) (r : Except ChainErr (Outputs × List Msg)) :
    withMsgs a (withMsgs b r) = withMsgs (a ++ b) r := by
  cases r with
  | error e => rfl
  | ok p => cases p with | mk o m => simp [withMsgs]

theorem execLoop_frame (ct : ToolInvoker) (mdf mdp : String) (p : List Json) :
    ∀ (outs : Outputs) (msgs : List Msg) (calls : List Call),
    execLoop ct mdf mdp p outs msgs calls
      = (calls ++ (execLoop ct mdf mdp p outs [] []).1,
         withMsgs msgs (execLoop ct mdf mdp p outs [] []).2) := by
  induction p with
  | nil => intro outs msgs calls; simp [execLoop, withMsgs]
  | cons s rest ih =>
      intro outs msgs calls
      cases hstep : execStep ct mdf mdp outs s with
      | errNoCall e => simp [execLoop, hstep, withMsgs]
      | errAfterCall call e => simp [execLoop, hstep, withMsgs]
      | okStep call text =>
          simp only [execLoop, hstep]
          rw [ih (dictSet outs call.1 text) (msgs ++ [Msg.tool call.1 text]) (calls ++ [call]),
              ih (dictSet outs call.1 text) ([] ++ [Msg.tool call.1 text]) ([] ++ [call])]
          simp [withMsgs_withMsgs, List.append_assoc]

theorem execLoop_append_ok (ct : ToolInvoker) (mdf mdp : String) (p1 : List Json) :
    ∀ (p2 : List Json) (outs : Outputs) (msgs : List Msg) (calls c1 : List Call)
      (o1 : Outputs) (m1 : List Msg),
    execLoop ct mdf mdp p1 outs msgs calls = (c1, Except.ok (o1, m1)) →
    execLoop ct mdf mdp (p1 ++ p2) outs msgs calls = execLoop ct mdf mdp p2 o1 m1 c1 := by
  induction p1 with
  | nil =>
      intro p2 outs msgs calls c1 o1 m1 h
      simp only [execLoop, Prod.mk.injEq, Except.ok.injEq] at h
      obtain ⟨rfl, rfl, rfl⟩ := h
      rfl
  | cons s rest ih =>
      intro p2 outs msgs calls c1 o1 m1 h
      cases hstep : execStep ct mdf mdp outs s with
      | errNoCall e => simp [execLoop, hstep] at h
      | errAfterCall call e => simp [execLoop, hstep] at h
      | okStep call text =>
          simp only [execLoop, hstep] at h
          simp only [List.cons_append, execLoop, hstep]
          exact ih p2 _ _ _ _ _ _ h

theorem execLoop_append_err (ct : ToolInvoker) (mdf mdp : String) (p1 : List Json) :
    ∀ (p2 : List Json) (outs : Outputs) (msgs : List Msg) (calls c1 : List Call)
      (e : ChainErr),
    execLoop ct mdf mdp p1 outs msgs calls = (c1, Except.error e) →
    execLoop ct mdf mdp (p1 ++ p2) outs msgs calls = (c1, Except.error e) := by
  induction p1 with
  | nil =>
      intro p2 outs msgs calls c1 e h
      simp only [execLoop, Prod.mk.injEq] at h
      exact absurd h.2 (by simp)
  | cons s rest ih =>
      intro p2 outs msgs calls c1 e h
      cases hstep : execStep ct mdf mdp outs s with
      | errNoCall e2 => simpa [execLoop, hstep] using h
      | errAfterCall call e2 => simpa [execLoop, hstep] using h
      | okStep call text =>
          simp only [execLoop, hstep] at h
          simp only [List.cons_append, execLoop, hstep]
          exact ih p2 _ _ _ _ _ h

theorem execLoop_ok_lengths (ct : ToolInvoker) (mdf mdp : String) (p : List Json) :
    ∀ (outs : Outputs) (msgs : List Msg) (calls c : List Call) (o : Outputs) (m : List Msg),
    execLoop ct mdf mdp p outs msgs calls = (c, Except.ok (o, m)) →
    c.length = calls.length + p.length ∧ m.length = msgs.length + p.length := by
  induction p with
  | nil =>
      intro outs msgs calls c o m h
      simp only [execLoop, Prod.mk.injEq, Except.ok.injEq] at h
      obtain ⟨rfl, rfl, rfl⟩ := h
      simp
  | cons s rest ih =>
      intro outs msgs calls c o m h
      cases hstep : execStep ct mdf mdp outs s with
      | errNoCall e => simp [execLoop, hstep] at h
      | errAfterCall call e => simp [execLoop, hstep] at h
      | okStep call text =>
          simp only [execLoop, hstep] at h
          have := ih _ _ _ _ _ _ h
          simp only [List.length_append, List.length_cons, List.length_nil] at this ⊢
          omega

theorem execLoop_prefix_ok (ct : ToolInvoker) (mdf mdp : String) (p1 p2 : List Json)
    (outs : Outputs) (msgs : List Msg) (calls c : List Call) (o : Outputs) (m : List Msg)
    (h : execLoop ct mdf mdp (p1 ++ p2) outs msgs calls = (c, Except.ok (o, m))) :
    ∃ c1 o1 m1, execLoop ct mdf mdp p1 outs msgs calls = (c1, Except.ok (o1, m1)) ∧
      execLoop ct mdf mdp p2 o1 m1 c1 = (c, Except.ok (o, m)) := by
  rcases h1 : execLoop ct mdf mdp p1 outs msgs calls with ⟨c1, r1⟩
  cases r1 with
  | error e =>
      rw [execLoop_append_err ct mdf mdp p1 p2 outs msgs calls c1 e h1] at h
      simp only [Prod.mk.injEq] at h
      exact absurd h.2 (by simp)
  | ok pr =>
      cases pr with
      | mk o1 m1 =>
          refine ⟨c1, o1, m1, rfl, ?_⟩
          rw [execLoop_append_ok ct mdf mdp p1 p2 outs msgs calls c1 o1 m1 h1] at h
          exact h

theorem execStep_okStep_elim (ct : ToolInvoker) (mdf mdp : String) (outs : Outputs)
    (step : Json) (call : Call) (text : String)
    (h : execStep ct mdf mdp outs step = StepOutcome.okStep call text) :
    ∃ kvs args rest, step = Json.obj kvs ∧ objGet kvs "tool" = some call.1 ∧
      objGet kvs "arguments" = some (Json.obj args) ∧
      call.2 = (resolve_tool_args call.1 args outs mdf mdp).1 ∧
      ct call.1 call.2 = Except.ok (text :: rest) := by
  cases step with
  | null => simp [execStep] at h
  | bool b => simp [execStep] at h
  | num n => simp [execStep] at h
  | str s => simp [execStep] at h
  | arr xs => simp [execStep] at h
  | obj kvs =>
      cases htool : objGet kvs "tool" with
      | none => simp [execStep, htool] at h
      | some name =>
          cases hargs : objGet kvs "arguments" with
          | none => simp [execStep, htool, hargs] at h
          | some argv =>
              cases argv with
              | null => simp [execStep, htool, hargs] at h
              | bool b => simp [execStep, htool, hargs] at h
              | num n => simp [execStep, htool, hargs] at h
              | str s => simp [execStep, htool, hargs] at h
              | arr xs => simp [execStep, htool, hargs] at h
              | obj argkvs =>
                  cases hct : ct name (resolve_tool_args name argkvs outs mdf mdp).1 with
                  | error e => simp [execStep, htool, hargs, hct] at h
                  | ok content =>
                      cases content with
                      | nil => simp [execStep, htool, hargs, hct] at h
                      | cons text2 rest =>
                          simp only [execStep, htool, hargs, hct] at h
                          injection h with hcall htext
                          refine ⟨kvs, argkvs, rest, rfl, ?_, hargs, ?_, ?_⟩
                          · rw [← hcall]; exact htool
                          · rw [← hcall]
                          · rw [← hcall, ← htext]; exact hct

theorem dictGet_dictSet_self (d : Outputs) (k : Json) (v : String) :
    dictGet (dictSet d k v) k = some v := by
  induction d with
  | nil => simp [dictGet, dictSet]
  | cons kv rest ih =>
      cases kv with
      | mk k2 v2 =>
          by_cases h : k2 = k
          · simp [dictSet, dictGet, h]
          · simp [dictSet, dictGet, h, ih]

theorem dictGet_dictSet_ne (d : Outputs) (k k' : Json) (v : String) (h : k ≠ k') :
    dictGet (dictSet d k v) k' = dictGet d k' := by
  induction d with
  | nil => simp [dictGet, dictSet, h]
  | cons kv rest ih =>
      cases kv with
      | mk k2 v2 =>
          by_cases h2 : k2 = k
          · subst h2; simp [dictSet, dictGet, h]
          · simp [dictSet, dictGet, h2, ih]

theorem stepTool_of_okStep (ct : ToolInvoker) (mdf mdp : String) (outs : Outputs)
    (step : Json) (call : Call) (text : String)
    (h : execStep ct mdf mdp outs step = StepOutcome.okStep call text) :
    stepTool step = some call.1 := by
  obtain ⟨kvs, args, rest, hobj, htool, _⟩ := execStep_okStep_elim ct mdf mdp outs step call text h
  rw [hobj]
  simpa [stepTool] using htool

theorem execLoop_preserves (ct : ToolInvoker) (mdf mdp : String) (p : List Json) :
    ∀ (outs : Outputs) (msgs : List Msg) (calls c : List Call) (o : Outputs) (m : List Msg)
      (nm : Json),
    (∀ s ∈ p, stepTool s ≠ some nm) →
    execLoop ct mdf mdp p outs msgs calls = (c, Except.ok (o, m)) →
    dictGet o nm = dictGet outs nm := by
  induction p with
  | nil =>
      intro outs msgs calls c o m nm _ h
      simp only [execLoop, Prod.mk.injEq, Except.ok.injEq] at h
      obtain ⟨rfl, rfl, rfl⟩ := h
      rfl
  | cons s rest ih =>
      intro outs msgs calls c o m nm hall h
      cases hstep : execStep ct mdf mdp outs s with
      | errNoCall e => simp [execLoop, hstep] at h
      | errAfterCall call e => simp [execLoop, hstep] at h
      | okStep call text =>
          simp only [execLoop, hstep] at h
          have hne : call.1 ≠ nm := by
            intro hEq
            exact hall s (List.mem_cons_self s rest)
              (by rw [stepTool_of_okStep ct mdf mdp outs s call text hstep, hEq])
          have hrest := ih _ _ _ _ _ _ nm (fun s2 hs2 => hall s2 (List.mem_cons_of_mem _ hs2)) h
          rw [hrest, dictGet_dictSet_ne _ _ _ _ hne]

/-! ### Helper lemmas about the resolver -/

theorem resolve_tool_args_snd (tool_name : Json) (args : Args) (outs : Outputs)
    (mdf mdp : String) : (resolve_tool_args tool_name args outs mdf mdp).2 = outs := by
  simp only [resolve_tool_args]

theorem resolve_tool_args_take (tool_name : Json) (args : Args) (outs : Outputs)
    (mdf mdp : String) :
    (resolve_tool_args tool_name args outs mdf mdp).1.take args.length
      = args.map (fun kv => (kv.1, resolveVal outs kv.2)) := by
  have hlen : args.length = (args.map (fun kv => (kv.1, resolveVal outs kv.2))).length :=
    (List.length_map _ _).symm
  simp only [resolve_tool_args]
  split_ifs <;>
    first
      | rw [List.append_assoc, hlen, List.take_left]
      | rw [hlen, List.take_left]
      | rw [hlen, List.take_length]

theorem resolve_tool_args_drop (tool_name : Json) (args : Args) (outs : Outputs)
    (mdf mdp : String) :
    ∀ kv ∈ (resolve_tool_args tool_name args outs mdf mdp).1.drop args.length,
      kv = ("filename", Json.str mdf) ∨ kv = ("attachment_path", Json.str mdp) := by
  have hlen : args.length = (args.map (fun kv => (kv.1, resolveVal outs kv.2))).length :=
    (List.length_map _ _).symm
  simp only [resolve_tool_args]
  split_ifs <;>
    first
      | rw [List.append_assoc, hlen, List.drop_left]
      | rw [hlen, List.drop_left]
      | rw [hlen, List.drop_length]
  all_goals intro kv hkv
  all_goals simp at hkv
  all_goals tauto

/-! ### Claim theorems -/

/-- C9 (corrected), counterexample: on the 60-character input `c9input`
(a leading space followed by 59 letters, none of the characters illegal),
`clean_filename` does not return the input's first 50 characters — the code
strips surrounding whitespace before truncating, which the claim omits. -/
theorem clean_filename_strip_cex :
    clean_filename c9input ≠ String.mk (c9input.data.take 50) ∧
    c9input.data.length = 60 ∧ (∀ c ∈ c9input.data, illegalChar c = false) := by
  refine ⟨by decide, by decide, by decide⟩

/-- C9 (amended): `clean_filename` removes every illegal character and
truncates to at most 50 characters; and on a 60-character input that contains
no illegal character and no leading or trailing whitespace, the result is
exactly the input's first 50 characters. -/
theorem clean_filename_truncate (s : String) :
    ((clean_filename s).data.length ≤ 50 ∧
      ∀ c ∈ (clean_filename s).data, illegalChar c = false) ∧
    (s.data.length = 60 → (∀ c ∈ s.data, illegalChar c = false) →
      stripEnds pyWsChar s.data = s.data →
      clean_filename s = String.mk (s.data.take 50)) := by
  have hd : (clean_filename s).data
      = ((stripEnds pyWsChar s.data).filter (fun c => !illegalChar c)).take 50 := rfl
  refine ⟨⟨?_, ?_⟩, ?_⟩
  · rw [hd, List.length_take]
    exact min_le_left _ _
  · intro c hc
    rw [hd] at hc
    have hm := List.mem_of_mem_take hc
    rw [List.mem_filter] at hm
    have := hm.2
    simpa using this
  · intro h60 hclean hstrip
    unfold clean_filename
    rw [hstrip]
    have hf : s.data.filter (fun c => !illegalChar c) = s.data :=
      List.filter_eq_self.mpr (fun a ha => by simp [hclean a ha])
    rw [hf]

/-- C9 witness: a 60-character all-letter input with no surrounding
whitespace is truncated to exactly its first 50 characters. -/
theorem clean_filename_truncate_witness :
    clean_filename (String.mk (List.replicate 60 'a'))
      = String.mk ((String.mk (List.replicate 60 'a')).data.take 50) :=
  (clean_filename_truncate (String.mk (List.replicate 60 'a'))).2
    (by decide) (by decide) (by decide)

/-- C2 (corrected), counterexample: the string value `\x7b\x7b\x7ba\x7d\x7d\x7d`
is, read as the claim reads it, the placeholder form whose token is
`\x7ba\x7d`; that token is not a key of the outputs mapping, so the claim
predicts the value is left unchanged — but `resolve_tool_args` substitutes the
output stored under `a`, because `val.strip("\x7b\x7d ")` strips all leading
and trailing braces and spaces, not only the whitespace inside the outer
braces. -/
theorem resolve_tool_args_placeholder_cex :
    (resolve_tool_args (Json.str "t") [("x", Json.str "\x7b\x7b\x7ba\x7d\x7d\x7d")]
        [(Json.str "a", "v")] "f" "p").1 = [("x", Json.str "v")] ∧
    specTokenOf "\x7b\x7b\x7ba\x7d\x7d\x7d" = some "\x7ba\x7d" ∧
    dictGet [(Json.str "a", "v")] (Json.str "\x7ba\x7d") = none ∧
    Json.str "v" ≠ Json.str "\x7b\x7b\x7ba\x7d\x7d\x7d" := by
  refine ⟨by decide, by decide, by decide, by decide⟩

/-- C2 (amended): the resolver rewrites each argument value independently
(keys and order preserved, then at most the two fixed injections are
appended); a string value is substituted if and only if it starts with
`\x7b\x7b`, ends with `\x7d\x7d`, and the value stripped of all leading and
trailing braces and spaces is a key of the outputs, in which case it becomes
the stored output text; a placeholder with an absent token is left unchanged
with no error; a string not delimited by the braces (in particular a
placeholder embedded inside a larger string) and every non-string value pass
through untouched. -/
theorem resolve_tool_args_placeholder_rule (tool_name : Json) (args : Args)
    (outs : Outputs) (mdf mdp : String) :
    ((resolve_tool_args tool_name args outs mdf mdp).1.take args.length
        = args.map (fun kv => (kv.1, resolveVal outs kv.2))) ∧
    (∀ s out, pyStartsWith s "\x7b\x7b" = true → pyEndsWith s "\x7d\x7d" = true →
      dictGet outs (Json.str (pyStripBraces s)) = some out →
      resolveVal outs (Json.str s) = Json.str out) ∧
    (∀ s, pyStartsWith s "\x7b\x7b" = true → pyEndsWith s "\x7d\x7d" = true →
      dictGet outs (Json.str (pyStripBraces s)) = none →
      resolveVal outs (Json.str s) = Json.str s) ∧
    (∀ s, ¬(pyStartsWith s "\x7b\x7b" = true ∧ pyEndsWith s "\x7d\x7d" = true) →
      resolveVal outs (Json.str s) = Json.str s) ∧
    (∀ v, (∀ s, v ≠ Json.str s) → resolveVal outs v = v) := by
  refine ⟨resolve_tool_args_take tool_name args outs mdf mdp, ?_, ?_, ?_, ?_⟩
  · intro s out hs he hget
    simp [resolveVal, hs, he, hget]
  · intro s hs he hget
    simp [resolveVal, hs, he, hget]
  · intro s hn
    have hb : (pyStartsWith s "\x7b\x7b" && pyEndsWith s "\x7d\x7d") = false := by
      rw [Bool.eq_false_iff]
      intro hb2
      exact hn (Bool.and_eq_true_iff.mp hb2)
    simp [resolveVal, hb]
  · intro v hv
    cases v with
    | str s => exact absurd rfl (hv s)
    | null => rfl
    | bool b => rfl
    | num n => rfl
    | arr xs => rfl
    | obj kvs => rfl

/-- C2 witness: a full-value placeholder with its token stored resolves to
the stored output text. -/
theorem resolve_tool_args_placeholder_rule_witness :
    resolveVal [(Json.str "a", "v")] (Json.str "\x7b\x7ba\x7d\x7d") = Json.str "v" :=
  (resolve_tool_args_placeholder_rule (Json.str "t") [] [(Json.str "a", "v")] "f" "p").2.1
    "\x7b\x7ba\x7d\x7d" "v" (by decide) (by decide) (by decide)

/-- C8 (corrected), counterexample: resolution is not effect-free on the
caller's argument mapping — the Python function rewrites `tool_args` in
place (and returns `None`); the post-state of the mapping differs from its
pre-state as soon as one placeholder is substituted. -/
theorem resolve_tool_args_mutation_cex :
    (resolve_tool_args (Json.str "t") [("x", Json.str "\x7b\x7ba\x7d\x7d")]
        [(Json.str "a", "foo")] "f" "p").1
      ≠ [("x", Json.str "\x7b\x7ba\x7d\x7d")] := by
  decide

/-- C8 (amended): the whole effect of `resolve_tool_args` is the in-place
rewrite of the argument mapping — the outputs mapping is only read and is
unchanged, and the post-state of the argument mapping is exactly the
original entries with values resolved (same keys, same order) followed by at
most the two fixed injected defaults. -/
theorem resolve_tool_args_effect (tool_name : Json) (args : Args) (outs : Outputs)
    (mdf mdp : String) :
    (resolve_tool_args tool_name args outs mdf mdp).2 = outs ∧
    (resolve_tool_args tool_name args outs mdf mdp).1.take args.length
      = args.map (fun kv => (kv.1, resolveVal outs kv.2)) ∧
    (∀ kv ∈ (resolve_tool_args tool_name args outs mdf mdp).1.drop args.length,
      kv = ("filename", Json.str mdf) ∨ kv = ("attachment_path", Json.str mdp)) :=
  ⟨resolve_tool_args_snd tool_name args outs mdf mdp,
   resolve_tool_args_take tool_name args outs mdf mdp,
   resolve_tool_args_drop tool_name args outs mdf mdp⟩

/-- C8 witness: at a concrete input, the outputs dict passed to the resolver
comes back unchanged. -/
theorem resolve_tool_args_effect_witness :
    (resolve_tool_args (Json.str "t") [("x", Json.str "\x7b\x7ba\x7d\x7d")]
        [(Json.str "a", "foo")] "f" "p").2 = [(Json.str "a", "foo")] :=
  (resolve_tool_args_effect (Json.str "t") [("x", Json.str "\x7b\x7ba\x7d\x7d")]
    [(Json.str "a", "foo")] "f" "p").1

/-- C4 (confirmed): `plan_tool_usage` returns the decoded JSON value
precisely when the extracted candidate parses and decodes to a list; any
other decoded shape yields the empty plan, and a parse failure yields the
empty plan instead of an exception. -/
theorem plan_tool_usage_parse_policy (content : String) :
    (∀ l, jsonLoads (extractCandidate content) = some (Json.arr l) →
      plan_tool_usage content = l) ∧
    (∀ v, jsonLoads (extractCandidate content) = some v → (∀ l, v ≠ Json.arr l) →
      plan_tool_usage content = []) ∧
    (jsonLoads (extractCandidate content) = none → plan_tool_usage content = []) := by
  refine ⟨?_, ?_, ?_⟩
  · intro l h
    simp [plan_tool_usage, h]
  · intro v h hv
    cases v with
    | arr xs => exact absurd rfl (hv xs)
    | null => simp [plan_tool_usage, h]
    | bool b => simp [plan_tool_usage, h]
    | num n => simp [plan_tool_usage, h]
    | str s => simp [plan_tool_usage, h]
    | obj kvs => simp [plan_tool_usage, h]
  · intro h
    simp [plan_tool_usage, h]

/-- C4 witness: a raw JSON array response decodes to itself; a JSON object
response and a malformed response both yield the empty plan. -/
theorem plan_tool_usage_parse_policy_witness :
    plan_tool_usage "[1, 2]" = [Json.num 1, Json.num 2] ∧
    plan_tool_usage "\x7b\x7d" = [] ∧
    plan_tool_usage "not json" = [] :=
  ⟨(plan_tool_usage_parse_policy "[1, 2]").1 [Json.num 1, Json.num 2] (by decide),
   (plan_tool_usage_parse_policy "\x7b\x7d").2.1 (Json.obj []) (by decide)
     (fun l h => Json.noConfusion h),
   (plan_tool_usage_parse_policy "not json").2.2 (by decide)⟩

/-- C5 (code_bug): the extraction regex is written with `\\s` inside a raw
string, so it demands a literal backslash character after the fence; a
normal fenced response therefore never matches, the code falls back to the
raw response text (backquotes included), `json.loads` fails on it, and the
plan is empty — even though the fenced contents are a valid JSON array.  A
raw-JSON response without a fence still parses. -/
theorem plan_tool_usage_fence_bug :
    searchFence (pyStrip "```json\n[\"a\"]\n```").data = none ∧
    plan_tool_usage "```json\n[\"a\"]\n```" = [] ∧
    jsonLoads "[\"a\"]" = some (Json.arr [Json.str "a"]) ∧
    plan_tool_usage "[\"a\"]" = [Json.str "a"] := by
  refine ⟨by decide, by decide, by decide, by decide⟩

/-- C7 (code_bug): the executor reads only `step["tool"]`; a plan step keyed
`name`/`arguments` — the very shape the planning prompt requests — raises
`KeyError: tool` before any invocation, while the identical step keyed
`tool` executes normally. -/
theorem execute_tool_chain_tool_key_only :
    execute_tool_chain ctW "q" [stepN] "f" "p"
      = ([], Except.error (ChainErr.keyError "tool")) ∧
    execute_tool_chain ctW "q"
        [Json.obj [("tool", Json.str "search_news"), ("arguments", Json.obj [])]] "f" "p"
      = ([(Json.str "search_news", [])],
         Except.ok ([(Json.str "search_news", "news-text")],
           [Msg.user "q", Msg.tool (Json.str "search_news") "news-text"])) := by
  exact ⟨rfl, rfl⟩

/-- C3 (confirmed): when the prefix of a plan executes successfully and the
invocation of the next step raises, `execute_tool_chain` propagates exactly
that error: the result is the invocation error, the invocation trace ends
with the failing call (no later step of the plan is invoked), and no
transcript or outputs are returned for the failing step or any later one. -/
theorem execute_tool_chain_fail_fast (ct : ToolInvoker) (q mdf mdp : String)
    (p1 : List Json) (step : Json) (p2 : List Json) (t1 : List Call) (o1 : Outputs)
    (m1 : List Msg) (kvs : List (String × Json)) (name : Json) (args : Args) (e : String)
    (h1 : execute_tool_chain ct q p1 mdf mdp = (t1, Except.ok (o1, m1)))
    (h2 : step = Json.obj kvs)
    (h3 : objGet kvs "tool" = some name)
    (h4 : objGet kvs "arguments" = some (Json.obj args))
    (h5 : ct name (resolve_tool_args name args o1 mdf mdp).1 = Except.error e) :
    execute_tool_chain ct q (p1 ++ step :: p2) mdf mdp
      = (t1 ++ [(name, (resolve_tool_args name args o1 mdf mdp).1)],
         Except.error (ChainErr.toolError e)) := by
  unfold execute_tool_chain at h1 ⊢
  rw [execLoop_append_ok ct mdf mdp p1 (step :: p2) [] [Msg.user q] [] t1 o1 m1 h1]
  subst h2
  simp only [execLoop, execStep, h3, h4, h5]

/-- C3 witness: in the plan `[stepA, stepF, stepB]` the second step's tool
raises, the error surfaces as the chain's result, and the third step is
never invoked. -/
theorem execute_tool_chain_fail_fast_witness :
    execute_tool_chain ctW "q" [stepA, stepF, stepB] "f" "p"
      = ([(Json.str "search_news", [("keyword", Json.str "xiaomi")]),
          (Json.str "bad_tool", [])],
         Except.error (ChainErr.toolError "boom")) :=
  execute_tool_chain_fail_fast ctW "q" "f" "p" [stepA] stepF [stepB]
    [(Json.str "search_news", [("keyword", Json.str "xiaomi")])]
    [(Json.str "search_news", "news-text")]
    [Msg.user "q", Msg.tool (Json.str "search_news") "news-text"]
    [("tool", Json.str "bad_tool"), ("arguments", Json.obj [])]
    (Json.str "bad_tool") [] "boom" rfl rfl rfl rfl rfl

/-- C10 (confirmed): a successfully invoked step records only the first
content element's text (in both the outputs mapping and the transcript
message), and a step whose invocation succeeds with an empty content list
raises IndexError, aborting the remaining steps exactly like an invocation
failure: nothing is recorded for that step and no later step is invoked. -/
theorem execute_tool_chain_content_first (ct : ToolInvoker) (q mdf mdp : String)
    (p1 : List Json) (step : Json) (p2 : List Json) (t1 : List Call) (o1 : Outputs)
    (m1 : List Msg) (kvs : List (String × Json)) (name : Json) (args : Args)
    (h1 : execute_tool_chain ct q p1 mdf mdp = (t1, Except.ok (o1, m1)))
    (h2 : step = Json.obj kvs)
    (h3 : objGet kvs "tool" = some name)
    (h4 : objGet kvs "arguments" = some (Json.obj args)) :
    (ct name (resolve_tool_args name args o1 mdf mdp).1 = Except.ok [] →
      execute_tool_chain ct q (p1 ++ step :: p2) mdf mdp
        = (t1 ++ [(name, (resolve_tool_args name args o1 mdf mdp).1)],
           Except.error ChainErr.indexError)) ∧
    (∀ text rest2, ct name (resolve_tool_args name args o1 mdf mdp).1 = Except.ok (text :: rest2) →
      execute_tool_chain ct q (p1 ++ [step]) mdf mdp
        = (t1 ++ [(name, (resolve_tool_args name args o1 mdf mdp).1)],
           Except.ok (dictSet o1 name text, m1 ++ [Msg.tool name text]))) := by
  constructor
  · intro hct
    unfold execute_tool_chain at h1 ⊢
    rw [execLoop_append_ok ct mdf mdp p1 (step :: p2) [] [Msg.user q] [] t1 o1 m1 h1]
    subst h2
    simp only [execLoop, execStep, h3, h4, hct]
  · intro text rest2 hct
    unfold execute_tool_chain at h1 ⊢
    rw [execLoop_append_ok ct mdf mdp p1 [step] [] [Msg.user q] [] t1 o1 m1 h1]
    subst h2
    simp only [execLoop, execStep, h3, h4, hct]

/-- C10 witness: `empty_tool` succeeds with empty content, so the chain
aborts with IndexError and the following step is not invoked; `search_news`
returns two content elements and only the first one is recorded. -/
theorem execute_tool_chain_content_first_witness :
    execute_tool_chain ctW "q" [stepE, stepA] "f" "p"
      = ([(Json.str "empty_tool", [])], Except.error ChainErr.indexError) ∧
    execute_tool_chain ctW "q" [stepA] "f" "p"
      = ([(Json.str "search_news", [("keyword", Json.str "xiaomi")])],
         Except.ok ([(Json.str "search_news", "news-text")],
           [Msg.user "q", Msg.tool (Json.str "search_news") "news-text"])) :=
  ⟨(execute_tool_chain_content_first ctW "q" "f" "p" [] stepE [stepA] [] []
      [Msg.user "q"] [("tool", Json.str "empty_tool"), ("arguments", Json.obj [])]
      (Json.str "empty_tool") [] rfl rfl rfl rfl).1 rfl,
   (execute_tool_chain_content_first ctW "q" "f" "p" [] stepA [] [] []
      [Msg.user "q"]
      [("tool", Json.str "search_news"), ("arguments", Json.obj [("keyword", Json.str "xiaomi")])]
      (Json.str "search_news") [("keyword", Json.str "xiaomi")] rfl rfl rfl rfl).2
      "news-text" ["extra"] rfl⟩

/-- C6 (confirmed): the outputs mapping binds a tool name to the most recent
output produced under it.  If a plan executes successfully and its step
`step` (tool name `nm`) is the last step of the plan naming `nm`, then the
final outputs bind `nm` to that step's recorded output text; moreover after
any prefix of the later steps the binding still holds, and a full-value
placeholder whose stripped token equals `nm` resolves there to exactly that
text. -/
theorem execute_tool_chain_last_write_wins (ct : ToolInvoker) (q mdf mdp : String)
    (p1 : List Json) (step : Json) (p2 : List Json) (t : List Call) (o : Outputs)
    (m : List Msg) (nm : Json)
    (hfull : execute_tool_chain ct q (p1 ++ step :: p2) mdf mdp = (t, Except.ok (o, m)))
    (hstep : stepTool step = some nm)
    (hlater : ∀ s ∈ p2, stepTool s ≠ some nm) :
    ∃ t1 o1 m1 text,
      execute_tool_chain ct q p1 mdf mdp = (t1, Except.ok (o1, m1)) ∧
      (∃ kvs args rest, step = Json.obj kvs ∧ objGet kvs "tool" = some nm ∧
        objGet kvs "arguments" = some (Json.obj args) ∧
        ct nm (resolve_tool_args nm args o1 mdf mdp).1 = Except.ok (text :: rest)) ∧
      dictGet o nm = some text ∧
      (∀ p3 p4, p2 = p3 ++ p4 →
        ∃ t3 o3 m3,
          execute_tool_chain ct q (p1 ++ step :: p3) mdf mdp = (t3, Except.ok (o3, m3)) ∧
          dictGet o3 nm = some text ∧
          ∀ ph : String, pyStartsWith ph "\x7b\x7b" = true →
            pyEndsWith ph "\x7d\x7d" = true → Json.str (pyStripBraces ph) = nm →
            resolveVal o3 (Json.str ph) = Json.str text) := by
  unfold execute_tool_chain at hfull ⊢
  obtain ⟨t1, o1, m1, hp1, hrest⟩ :=
    execLoop_prefix_ok ct mdf mdp p1 (step :: p2) [] [Msg.user q] [] t o m hfull
  cases hse : execStep ct mdf mdp o1 step with
  | errNoCall e => simp [execLoop, hse] at hrest
  | errAfterCall call e => simp [execLoop, hse] at hrest
  | okStep call text =>
      simp only [execLoop, hse] at hrest
      have hc1 : call.1 = nm := by
        have hs2 := stepTool_of_okStep ct mdf mdp o1 step call text hse
        rw [hs2] at hstep
        exact Option.some.inj hstep
      obtain ⟨kvs, args, rest, hobj, htool, hargs, hrargs, hct⟩ :=
        execStep_okStep_elim ct mdf mdp o1 step call text hse
      rw [hc1] at htool hrargs hct
      rw [hrargs] at hct
      refine ⟨t1, o1, m1, text, hp1, ⟨kvs, args, rest, hobj, htool, hargs, hct⟩, ?_, ?_⟩
      · have hpres := execLoop_preserves ct mdf mdp p2 _ _ _ _ _ _ nm hlater hrest
        rw [hpres, hc1, dictGet_dictSet_self]
      · intro p3 p4 hp2eq
        subst hp2eq
        obtain ⟨t3, o3, m3, h3run, _⟩ :=
          execLoop_prefix_ok ct mdf mdp p3 p4 _ _ _ t o m hrest
        have hdg : dictGet o3 nm = some text := by
          have hpres := execLoop_preserves ct mdf mdp p3 _ _ _ _ _ _ nm
            (fun s hs => hlater s (List.mem_append.mpr (Or.inl hs))) h3run
          rw [hpres, hc1, dictGet_dictSet_self]
        have hchain : execLoop ct mdf mdp (p1 ++ step :: p3) [] [Msg.user q] []
            = (t3, Except.ok (o3, m3)) := by
          rw [execLoop_append_ok ct mdf mdp p1 (step :: p3) [] [Msg.user q] [] t1 o1 m1 hp1]
          simp only [execLoop, hse]
          exact h3run
        refine ⟨t3, o3, m3, hchain, hdg, ?_⟩
        intro ph hps hpe hptok
        have hget : dictGet o3 (Json.str (pyStripBraces ph)) = some text := by
          rw [hptok]; exact hdg
        simp [resolveVal, hps, hpe, hget]

/-- C6 witness: `search_news` appears twice in the plan
`[stepA, stepA2, stepC]`; applying the last-write-wins theorem at this plan
(whose successful execution is discharged by evaluation) shows the final
outputs bind `search_news` to the second invocation's text. -/
theorem execute_tool_chain_last_write_wins_witness :
    ∃ text,
      dictGet [(Json.str "search_news", "second-out"), (Json.str "consume", "consumed")]
        (Json.str "search_news") = some text ∧
      ctW (Json.str "search_news") [("keyword", Json.str "second")]
        = Except.ok ["second-out"] := by
  obtain ⟨t1, o1, m1, text, hp1, hfacts, hdg, _⟩ :=
    execute_tool_chain_last_write_wins ctW "q" "f" "p" [stepA] stepA2 [stepC]
      [(Json.str "search_news", [("keyword", Json.str "xiaomi")]),
       (Json.str "search_news", [("keyword", Json.str "second")]),
       (Json.str "consume", [("data", Json.str "second-out")])]
      [(Json.str "search_news", "second-out"), (Json.str "consume", "consumed")]
      [Msg.user "q", Msg.tool (Json.str "search_news") "news-text",
       Msg.tool (Json.str "search_news") "second-out",
       Msg.tool (Json.str "consume") "consumed"]
      (Json.str "search_news") rfl rfl (by decide)
  exact ⟨text, hdg, rfl⟩

/-- C1 (confirmed): on a successful run, the executor invokes exactly the
plan's tools in the plan's order — at every split of the plan, the prefix
has executed successfully before the next step's invocation, that step's
arguments are resolved against exactly the outputs committed by the prefix,
and its call is the next entry of the invocation trace; the transcript is
the user message followed by exactly one tool message per executed step, in
execution order, carrying the step's recorded output text and the tool name
as call identifier. -/
theorem execute_tool_chain_order (ct : ToolInvoker) (q mdf mdp : String)
    (p1 : List Json) (step : Json) (p2 : List Json) (t : List Call) (o : Outputs)
    (m : List Msg)
    (h : execute_tool_chain ct q (p1 ++ step :: p2) mdf mdp = (t, Except.ok (o, m))) :
    ∃ t1 o1 m1 kvs args name text rest,
      execute_tool_chain ct q p1 mdf mdp = (t1, Except.ok (o1, m1)) ∧
      step = Json.obj kvs ∧
      objGet kvs "tool" = some name ∧
      objGet kvs "arguments" = some (Json.obj args) ∧
      ct name (resolve_tool_args name args o1 mdf mdp).1 = Except.ok (text :: rest) ∧
      t1.length = p1.length ∧ m1.length = p1.length + 1 ∧
      t.take p1.length = t1 ∧
      t.take (p1.length + 1) = t1 ++ [(name, (resolve_tool_args name args o1 mdf mdp).1)] ∧
      m.take (p1.length + 2) = m1 ++ [Msg.tool name text] ∧
      t.length = p1.length + 1 + p2.length ∧
      (∃ mrest, m = Msg.user q :: mrest ∧ mrest.length = p1.length + 1 + p2.length) := by
  unfold execute_tool_chain at h ⊢
  obtain ⟨t1, o1, m1, hp1, hrest⟩ :=
    execLoop_prefix_ok ct mdf mdp p1 (step :: p2) [] [Msg.user q] [] t o m h
  cases hse : execStep ct mdf mdp o1 step with
  | errNoCall e => simp [execLoop, hse] at hrest
  | errAfterCall call e => simp [execLoop, hse] at hrest
  | okStep call text =>
      obtain ⟨cn, cr⟩ := call
      simp only [execLoop, hse] at hrest
      obtain ⟨kvs, args, rest, hobj, htool, hargs, hrargs, hct⟩ :=
        execStep_okStep_elim ct mdf mdp o1 step (cn, cr) text hse
      dsimp only at htool hrargs hct hrest
      subst hrargs
      -- lengths of the prefix run
      obtain ⟨ht1len, hm1len⟩ :=
        execLoop_ok_lengths ct mdf mdp p1 [] [Msg.user q] [] t1 o1 m1 hp1
      simp only [List.length_nil, List.length_cons, Nat.zero_add] at ht1len hm1len
      -- structure of the prefix run's transcript: it starts with the user message
      have hp1' := hp1
      rw [execLoop_frame ct mdf mdp p1 [] [Msg.user q] []] at hp1'
      rcases h1b : execLoop ct mdf mdp p1 [] [] [] with ⟨c1b, r1b⟩
      rw [h1b] at hp1'
      cases r1b with
      | error e1 => simp [withMsgs] at hp1'
      | ok pr1 =>
          obtain ⟨o1b, m1b⟩ := pr1
          simp only [withMsgs, Prod.mk.injEq, Except.ok.injEq, List.nil_append] at hp1'
          obtain ⟨hc1b, ho1b, hm1b⟩ := hp1'
          -- the suffix run, framed against the state after the split step
          rw [execLoop_frame ct mdf mdp p2 (dictSet o1 cn text)
                (m1 ++ [Msg.tool cn text])
                (t1 ++ [(cn, (resolve_tool_args cn args o1 mdf mdp).1)])] at hrest
          rcases h2 : execLoop ct mdf mdp p2 (dictSet o1 cn text) [] [] with ⟨c2, r2⟩
          rw [h2] at hrest
          cases r2 with
          | error e2 => simp [withMsgs] at hrest
          | ok pr2 =>
              obtain ⟨o2, m2⟩ := pr2
              obtain ⟨hc2len, hm2len⟩ :=
                execLoop_ok_lengths ct mdf mdp p2 (dictSet o1 cn text) [] [] c2 o2 m2 h2
              simp only [List.length_nil, Nat.zero_add] at hc2len hm2len
              simp only [withMsgs, Prod.mk.injEq, Except.ok.injEq] at hrest
              obtain ⟨ht, ho2, hm⟩ := hrest
              subst ht ho2 hm
              refine ⟨t1, o1, m1, kvs, args, cn, text, rest, hp1, hobj, htool, hargs, hct,
                ht1len, ?_, ?_, ?_, ?_, ?_, ?_⟩
              · omega
              · rw [List.append_assoc, show p1.length = t1.length from ht1len.symm,
                  List.take_left]
              · rw [show p1.length + 1
                    = (t1 ++ [(cn, (resolve_tool_args cn args o1 mdf mdp).1)]).length from by
                      simp [ht1len], List.take_left]
              · rw [show p1.length + 2 = (m1 ++ [Msg.tool cn text]).length from by
                      simp [hm1len]; omega, List.take_left]
              · simp only [List.length_append, List.length_cons, List.length_nil]
                omega
              · refine ⟨m1b ++ [Msg.tool cn text] ++ m2, ?_, ?_⟩
                · rw [← hm1b]
                  simp [List.append_assoc]
                · have hm1blen : m1b.length + 1 = m1.length := by
                    rw [← hm1b]; simp
                  simp only [List.length_append, List.length_cons, List.length_nil]
                  omega

/-- C1 witness: on the two-step plan `[stepA, stepB]` (search, then
analysis of the search output), the theorem applied at the split after
`stepA` yields the prefix execution, the resolved arguments of `stepB`
against the prefix outputs, and the transcript prefix facts. -/
theorem execute_tool_chain_order_witness :
    ∃ t1 o1 m1 kvs args name text rest,
      execute_tool_chain ctW "q" [stepA] "f" "p" = (t1, Except.ok (o1, m1)) ∧
      stepB = Json.obj kvs ∧
      objGet kvs "tool" = some name ∧
      objGet kvs "arguments" = some (Json.obj args) ∧
      ctW name (resolve_tool_args name args o1 "f" "p").1 = Except.ok (text :: rest) ∧
      t1.length = 1 ∧ m1.length = 2 ∧
      [(Json.str "search_news", [("keyword", Json.str "xiaomi")]),
       (Json.str "analyze_sentiment",
         [("text", Json.str "news-text"), ("filename", Json.str "f")])].take 1 = t1 ∧
      True := by
  obtain ⟨t1, o1, m1, kvs, args, name, text, rest, h1, h2, h3, h4, h5, h6, h7, h8, _⟩ :=
    execute_tool_chain_order ctW "q" "f" "p" [stepA] stepB []
      [(Json.str "search_news", [("keyword", Json.str "xiaomi")]),
       (Json.str "analyze_sentiment",
         [("text", Json.str "news-text"), ("filename", Json.str "f")])]
      [(Json.str "search_news", "news-text"), (Json.str "analyze_sentiment", "sentiment-text")]
      [Msg.user "q", Msg.tool (Json.str "search_news") "news-text",
       Msg.tool (Json.str "analyze_sentiment") "sentiment-text"]
      rfl
  exact ⟨t1, o1, m1, kvs, args, name, text, rest, h1, h2, h3, h4, h5,
    by simpa using h6, by simpa using h7, by simpa using h8, trivial⟩

end MCP
